import Mathlib

/-!
Verification of the HMMER alignment-file parser (src/hmm/hmmalign_file.rs)
of the prole repository, as a shallow embedding in Lean.

The embedding follows the source line by line: lines are the strings the
buffered reader yields (terminators stripped), the regular expressions
RE_GR, RE_PP_CONS, RE_GC_RF and RE_ALIGN are modelled by deterministic
token scanners (each pattern alternates the complementary classes
non-whitespace and whitespace, so the match is unique), the HashMaps are
association lists in insertion order, and the out-of-bounds indexing
seq_chars[idx] in get_alignment is modelled by a distinguished `panicked`
outcome.
-/

/-- Whitespace as the regex class matches it on the ASCII range
(space, tab, line feed, vertical tab, form feed, carriage return). -/
def wsChar (c : Char) : Bool :=
  c == ' ' || c == '\t' || c == '\n' || c == '\x0b' || c == '\x0c' || c == '\r'

/-- Model of str::starts_with on character lists: the second list is a
prefix of the first. -/
def startsWithL : List Char → List Char → Bool
  | _, [] => true
  | [], _ :: _ => false
  | c :: cs, p :: ps => c == p && startsWithL cs ps

/-- Drop an expected literal prefix, or fail. -/
def dropPrefixL : List Char → List Char → Option (List Char)
  | cs, [] => some cs
  | [], _ :: _ => none
  | c :: cs, p :: ps => if c == p then dropPrefixL cs ps else none

/-- Model of the anchored regex RE_GR on a line: the literal prefix, a
non-whitespace identifier, whitespace, the literal PP, whitespace, and a
trailing non-whitespace value token.  Returns (identifier, value). -/
def matchGR (cs : List Char) : Option (List Char × List Char) :=
  match dropPrefixL cs ("#=GR ".data) with
  | none => none
  | some r0 =>
    let gid := r0.takeWhile (fun c => !wsChar c)
    let r1 := r0.dropWhile (fun c => !wsChar c)
    let w1 := r1.takeWhile wsChar
    let r2 := r1.dropWhile wsChar
    if gid.isEmpty || w1.isEmpty then none
    else
      match dropPrefixL r2 ("PP".data) with
      | none => none
      | some r3 =>
        let w2 := r3.takeWhile wsChar
        let v := r3.dropWhile wsChar
        if w2.isEmpty || v.isEmpty || v.any wsChar then none
        else some (gid, v)

/-- Model of the anchored regex RE_PP_CONS: the literal prefix, whitespace,
and a trailing non-whitespace value token. -/
def matchPPcons (cs : List Char) : Option (List Char) :=
  match dropPrefixL cs ("#=GC PP_cons".data) with
  | none => none
  | some r0 =>
    let w := r0.takeWhile wsChar
    let v := r0.dropWhile wsChar
    if w.isEmpty || v.isEmpty || v.any wsChar then none else some v

/-- Model of the anchored regex RE_GC_RF: the literal prefix, whitespace,
and a trailing non-whitespace value token. -/
def matchRF (cs : List Char) : Option (List Char) :=
  match dropPrefixL cs ("#=GC RF".data) with
  | none => none
  | some r0 =>
    let w := r0.takeWhile wsChar
    let v := r0.dropWhile wsChar
    if w.isEmpty || v.isEmpty || v.any wsChar then none else some v

/-- Model of the anchored regex RE_ALIGN: two non-whitespace tokens
separated by whitespace. -/
def matchAlign (cs : List Char) : Option (List Char × List Char) :=
  let t1 := cs.takeWhile (fun c => !wsChar c)
  let r1 := cs.dropWhile (fun c => !wsChar c)
  let w1 := r1.takeWhile wsChar
  let t2 := r1.dropWhile wsChar
  if t1.isEmpty || w1.isEmpty || t2.isEmpty || t2.any wsChar then none
  else some (t1, t2)

/-- Error type of the repository (error.rs); only the Exit variant is
reachable in this model (the others wrap I/O and number-parsing failures
that do not arise from the alignment parser's own logic). -/
inductive ProleError where
  | Exit : String → ProleError
  deriving DecidableEq

/-- The parsed structure HmmAlignFile; the two HashMaps are association
lists in insertion order (they are only queried by key and by length). -/
structure HmmAlignFile where
  seq : List (String × String)
  pp : List (String × String)
  pp_cons : String
  mask : List Bool
  mask_idx : List Nat
  deriving DecidableEq

/-- Model of HashMap::contains_key. -/
def containsKey (m : List (String × String)) (k : String) : Bool :=
  m.any (fun kv => kv.1 == k)

/-- Model of HashMap::get. -/
def mapGet : List (String × String) → String → Option String
  | [], _ => none
  | kv :: rest, k => if kv.1 == k then some kv.2 else mapGet rest k

/-- The mask-building loop of the RF branch: push true and the index for
the character x, push false for every other character; the counter is the
0-based character position. -/
def buildMask : List Char → Nat → List Bool × List Nat
  | [], _ => ([], [])
  | c :: cs, i =>
    let rest := buildMask cs (i + 1)
    if c == 'x' then (true :: rest.1, i :: rest.2) else (false :: rest.1, rest.2)

/-- The empty accumulator state the parse loop starts from. -/
def emptyFile : HmmAlignFile :=
  { seq := [], pp := [], pp_cons := "", mask := [], mask_idx := [] }

/-- The #=GR branch of the loop body. -/
def grLine (st : HmmAlignFile) (line : String) : Except ProleError HmmAlignFile :=
  match matchGR line.data with
  | none => .error (.Exit ("Error parsing: " ++ line))
  | some (gid, v) =>
    if containsKey st.pp ⟨gid⟩ then .error (.Exit ("Duplicate: " ++ line))
    else .ok { st with pp := st.pp ++ [(⟨gid⟩, ⟨v⟩)] }

/-- The #=GC PP_cons branch of the loop body. -/
def ppconsLine (st : HmmAlignFile) (line : String) : Except ProleError HmmAlignFile :=
  match matchPPcons line.data with
  | none => .error (.Exit ("Error parsing: " ++ line))
  | some v =>
    if !st.pp_cons.data.isEmpty then .error (.Exit ("Duplicate: " ++ line))
    else .ok { st with pp_cons := ⟨v⟩ }

/-- The #=GC RF branch of the loop body. -/
def rfLine (st : HmmAlignFile) (line : String) : Except ProleError HmmAlignFile :=
  match matchRF line.data with
  | none => .error (.Exit ("Error parsing: " ++ line))
  | some v =>
    if !st.mask.isEmpty then .error (.Exit ("Duplicate: " ++ line))
    else
      let bm := buildMask v 0
      .ok { st with mask := st.mask ++ bm.1, mask_idx := st.mask_idx ++ bm.2 }

/-- The default (sequence-alignment row) branch of the loop body. -/
def alignLine (st : HmmAlignFile) (line : String) : Except ProleError HmmAlignFile :=
  match matchAlign line.data with
  | none => .error (.Exit ("Error parsing: " ++ line))
  | some (gid, v) =>
    if containsKey st.seq ⟨gid⟩ then .error (.Exit ("Duplicate: " ++ line))
    else .ok { st with seq := st.seq ++ [(⟨gid⟩, ⟨v⟩)] }

/-- One iteration of the parse loop of from_bufreader: classify the line by
the source's prefix tests, in the source's order, and route it. -/
def processLine (st : HmmAlignFile) (line : String) : Except ProleError HmmAlignFile :=
  let cs := line.data
  if cs.isEmpty || startsWithL cs ("# STOCKHOLM".data) || startsWithL cs ("//".data) then
    .ok st
  else if startsWithL cs ("#=GR ".data) then grLine st line
  else if startsWithL cs ("#=GC PP_cons".data) then ppconsLine st line
  else if startsWithL cs ("#=GC RF".data) then rfLine st line
  else alignLine st line

/-- The parse loop over all lines, stopping at the first error. -/
def processLines : HmmAlignFile → List String → Except ProleError HmmAlignFile
  | st, [] => .ok st
  | st, l :: ls =>
    match processLine st l with
    | .error e => .error e
    | .ok st2 => processLines st2 ls

/-- The end-of-stream validation block of from_bufreader, checks in source
order. -/
def validate (st : HmmAlignFile) : Except ProleError HmmAlignFile :=
  if st.seq.isEmpty then .error (.Exit "Missing seq")
  else if st.pp.isEmpty then .error (.Exit "Missing pp")
  else if st.seq.length != st.pp.length then
    .error (.Exit "Seq and pp have different lengths")
  else if st.pp_cons.data.isEmpty then .error (.Exit "Missing PP_cons")
  else if st.mask.isEmpty || st.mask_idx.isEmpty then .error (.Exit "Missing mask")
  else .ok st

instance {ε α : Type} [DecidableEq ε] [DecidableEq α] : DecidableEq (Except ε α) := fun a b =>
  match a, b with
  | .error e, .error f =>
    if h : e = f then .isTrue (by rw [h]) else .isFalse (fun hh => h (Except.error.inj hh))
  | .ok x, .ok y =>
    if h : x = y then .isTrue (by rw [h]) else .isFalse (fun hh => h (Except.ok.inj hh))
  | .error _, .ok _ => .isFalse (fun hh => Except.noConfusion hh)
  | .ok _, .error _ => .isFalse (fun hh => Except.noConfusion hh)

/-- HmmAlignFile::from_bufreader on the list of lines the reader yields. -/
def from_bufreader (lines : List String) : Except ProleError HmmAlignFile :=
  match processLines emptyFile lines with
  | .error e => .error e
  | .ok st => validate st

/-- Outcome of get_alignment: the Ok string, the Err value, or a Rust
panic (the source indexes seq_chars[idx] without a bounds check). -/
inductive AlignResult where
  | ok : String → AlignResult
  | err : ProleError → AlignResult
  | panicked : AlignResult
  deriving DecidableEq

/-- The projection loop of get_alignment: take the character at each
retained index in order; the first out-of-bounds index panics. -/
def pickChars (cs : List Char) : List Nat → Option (List Char)
  | [] => some []
  | i :: is =>
    match cs.get? i with
    | none => none
    | some c =>
      match pickChars cs is with
      | none => none
      | some rest => some (c :: rest)

/-- HmmAlignFile::get_alignment. -/
def get_alignment (st : HmmAlignFile) (gene_id : String) : AlignResult :=
  match mapGet st.seq gene_id with
  | none => .err (.Exit ("Missing sequence for: " ++ gene_id))
  | some s =>
    match pickChars s.data st.mask_idx with
    | none => .panicked
    | some out => .ok ⟨out⟩

/-- The 0-based positions at which a boolean list is true, counting from i. -/
def idxTrue : List Bool → Nat → List Nat
  | [], _ => []
  | b :: bs, i => if b then i :: idxTrue bs (i + 1) else idxTrue bs (i + 1)

/-- Classification of a line as a sequence-alignment row: none of the
earlier branches claims it and RE_ALIGN matches; yields the identifier. -/
def alignRowId (l : String) : Option String :=
  let cs := l.data
  if cs.isEmpty || startsWithL cs ("# STOCKHOLM".data) || startsWithL cs ("//".data)
      || startsWithL cs ("#=GR ".data) || startsWithL cs ("#=GC PP_cons".data)
      || startsWithL cs ("#=GC RF".data) then none
  else
    match matchAlign cs with
    | none => none
    | some (gid, _) => some ⟨gid⟩

theorem idxTrue_cons_true (bs : List Bool) (i : Nat) :
    idxTrue (true :: bs) i = i :: idxTrue bs (i + 1) := rfl

theorem idxTrue_cons_false (bs : List Bool) (i : Nat) :
    idxTrue (false :: bs) i = idxTrue bs (i + 1) := rfl

theorem buildMask_spec (cs : List Char) (i : Nat) :
    (buildMask cs i).1 = cs.map (fun c => c == 'x') ∧
    (buildMask cs i).2 = idxTrue (cs.map (fun c => c == 'x')) i := by
  induction cs generalizing i with
  | nil => simp [buildMask, idxTrue]
  | cons c cs ih =>
    rcases ih (i + 1) with ⟨h1, h2⟩
    by_cases hc : c == 'x'
    · simp [buildMask, hc, h1, h2, idxTrue_cons_true]
    · simp [buildMask, hc, h1, h2, idxTrue_cons_false]

theorem idxTrue_length (m : List Bool) (i : Nat) :
    (idxTrue m i).length = m.count true := by
  induction m generalizing i with
  | nil => simp [idxTrue]
  | cons b bs ih =>
    cases b <;> simp [idxTrue_cons_true, idxTrue_cons_false, List.count_cons, ih]

theorem idxTrue_ge (m : List Bool) (i : Nat) : ∀ j ∈ idxTrue m i, i ≤ j := by
  induction m generalizing i with
  | nil => simp [idxTrue]
  | cons b bs ih =>
    intro j hj
    cases b with
    | false =>
      rw [idxTrue_cons_false] at hj
      exact Nat.le_of_succ_le (ih (i + 1) j hj)
    | true =>
      rw [idxTrue_cons_true, List.mem_cons] at hj
      rcases hj with rfl | hj
      · exact Nat.le_refl j
      · exact Nat.le_of_succ_le (ih (i + 1) j hj)

theorem idxTrue_sorted (m : List Bool) (i : Nat) :
    List.Pairwise (fun a b => a < b) (idxTrue m i) := by
  induction m generalizing i with
  | nil => simp [idxTrue]
  | cons b bs ih =>
    cases b with
    | false =>
      rw [idxTrue_cons_false]
      exact ih (i + 1)
    | true =>
      rw [idxTrue_cons_true, List.pairwise_cons]
      exact ⟨fun j hj => Nat.lt_of_succ_le (idxTrue_ge bs (i + 1) j hj), ih (i + 1)⟩

theorem idxTrue_mem (m : List Bool) (i j : Nat) :
    j ∈ idxTrue m i ↔ ∃ k, m.get? k = some true ∧ j = i + k := by
  induction m generalizing i j with
  | nil => simp [idxTrue]
  | cons b bs ih =>
    cases b with
    | false =>
      rw [idxTrue_cons_false, ih]
      constructor
      · rintro ⟨k, hk, rfl⟩
        exact ⟨k + 1, by simpa using hk, by omega⟩
      · rintro ⟨k, hk, rfl⟩
        cases k with
        | zero => simp at hk
        | succ k => exact ⟨k, by simpa using hk, by omega⟩
    | true =>
      rw [idxTrue_cons_true, List.mem_cons, ih]
      constructor
      · rintro (rfl | ⟨k, hk, rfl⟩)
        · exact ⟨0, by simp, by omega⟩
        · exact ⟨k + 1, by simpa using hk, by omega⟩
      · rintro ⟨k, hk, rfl⟩
        cases k with
        | zero => left; omega
        | succ k => right; exact ⟨k, by simpa using hk, by omega⟩

theorem strDataAppend (a b : String) : (a ++ b).data = a.data ++ b.data := by
  cases a; cases b; rfl

theorem errParse_ne_missing_mask (l : String) :
    ProleError.Exit ("Error parsing: " ++ l) ≠ ProleError.Exit "Missing mask" := by
  intro h
  have h1 : ("Error parsing: " ++ l).data.head? = ("Missing mask" : String).data.head? :=
    congrArg (fun s => s.data.head?) (ProleError.Exit.inj h)
  rw [strDataAppend] at h1
  rw [show ("Error parsing: " : String).data = 'E' :: ("rror parsing: " : String).data from rfl] at h1
  rw [show ("Missing mask" : String).data = 'M' :: ("issing mask" : String).data from rfl] at h1
  simp [List.head?] at h1

theorem dup_ne_missing_mask (l : String) :
    ProleError.Exit ("Duplicate: " ++ l) ≠ ProleError.Exit "Missing mask" := by
  intro h
  have h1 : ("Duplicate: " ++ l).data.head? = ("Missing mask" : String).data.head? :=
    congrArg (fun s => s.data.head?) (ProleError.Exit.inj h)
  rw [strDataAppend] at h1
  rw [show ("Duplicate: " : String).data = 'D' :: ("uplicate: " : String).data from rfl] at h1
  rw [show ("Missing mask" : String).data = 'M' :: ("issing mask" : String).data from rfl] at h1
  simp [List.head?] at h1

theorem processLine_ok_elim (st st2 : HmmAlignFile) (l : String)
    (h : processLine st l = .ok st2) :
    st2 = st ∨
    (∃ gid v, matchGR l.data = some (gid, v) ∧ containsKey st.pp ⟨gid⟩ = false ∧
      st2 = { st with pp := st.pp ++ [(⟨gid⟩, ⟨v⟩)] }) ∨
    (startsWithL l.data ("#=GC PP_cons".data) = true ∧ ∃ v, matchPPcons l.data = some v ∧
      st.pp_cons.data = [] ∧ st2 = { st with pp_cons := ⟨v⟩ }) ∨
    (∃ v, matchRF l.data = some v ∧ st.mask = [] ∧
      st2 = { st with mask := st.mask ++ (buildMask v 0).1,
                      mask_idx := st.mask_idx ++ (buildMask v 0).2 }) ∨
    (∃ gid v, matchAlign l.data = some (gid, v) ∧ containsKey st.seq ⟨gid⟩ = false ∧
      st2 = { st with seq := st.seq ++ [(⟨gid⟩, ⟨v⟩)] }) := by
  simp only [processLine] at h
  split at h
  · left; exact (Except.ok.inj h).symm
  · split at h
    · unfold grLine at h
      split at h
      · exact absurd h (by simp)
      · rename_i gid v _
        split at h
        · exact absurd h (by simp)
        · rename_i hdup
          right; left
          exact ⟨gid, v, by assumption, by simpa using hdup, (Except.ok.inj h).symm⟩
    · split at h
      · rename_i hpre
        unfold ppconsLine at h
        split at h
        · exact absurd h (by simp)
        · rename_i v _
          split at h
          · exact absurd h (by simp)
          · rename_i hemp
            right; right; left
            refine ⟨hpre, v, by assumption, ?_, (Except.ok.inj h).symm⟩
            simpa using hemp
      · split at h
        · unfold rfLine at h
          split at h
          · exact absurd h (by simp)
          · rename_i v _
            split at h
            · exact absurd h (by simp)
            · rename_i hemp
              right; right; right; left
              refine ⟨v, by assumption, ?_, (Except.ok.inj h).symm⟩
              simpa using hemp
        · unfold alignLine at h
          split at h
          · exact absurd h (by simp)
          · rename_i gid v _
            split at h
            · exact absurd h (by simp)
            · rename_i hdup
              right; right; right; right
              exact ⟨gid, v, by assumption, by simpa using hdup, (Except.ok.inj h).symm⟩

theorem processLine_error_elim (st : HmmAlignFile) (l : String) (e : ProleError)
    (h : processLine st l = .error e) :
    e = .Exit ("Error parsing: " ++ l) ∨ e = .Exit ("Duplicate: " ++ l) := by
  simp only [processLine] at h
  split at h
  · exact absurd h (by simp)
  · split at h
    · unfold grLine at h
      split at h
      · left; exact (Except.error.inj h).symm
      · split at h
        · right; exact (Except.error.inj h).symm
        · exact absurd h (by simp)
    · split at h
      · unfold ppconsLine at h
        split at h
        · left; exact (Except.error.inj h).symm
        · split at h
          · right; exact (Except.error.inj h).symm
          · exact absurd h (by simp)
      · split at h
        · unfold rfLine at h
          split at h
          · left; exact (Except.error.inj h).symm
          · split at h
            · right; exact (Except.error.inj h).symm
            · exact absurd h (by simp)
        · unfold alignLine at h
          split at h
          · left; exact (Except.error.inj h).symm
          · split at h
            · right; exact (Except.error.inj h).symm
            · exact absurd h (by simp)

/-- Cross-section invariant the parse loop maintains: the retained-index
list is exactly the list of positions at which the boolean mask is true. -/
def MaskInv (st : HmmAlignFile) : Prop := st.mask_idx = idxTrue st.mask 0

theorem processLine_maskInv (st st2 : HmmAlignFile) (l : String)
    (h : processLine st l = .ok st2) (hinv : MaskInv st) : MaskInv st2 := by
  rcases processLine_ok_elim st st2 l h with rfl | ⟨g, v, _, _, rfl⟩ | ⟨_, v, _, _, rfl⟩ |
      ⟨v, hm, hmask, rfl⟩ | ⟨g, v, _, _, rfl⟩
  · exact hinv
  · exact hinv
  · exact hinv
  · unfold MaskInv at hinv ⊢
    simp only [hmask] at hinv ⊢
    simp only [idxTrue] at hinv
    rcases buildMask_spec v 0 with ⟨h1, h2⟩
    simp [hinv, h1, h2]
  · exact hinv

theorem processLines_maskInv (L : List String) (st st2 : HmmAlignFile)
    (h : processLines st L = .ok st2) (hinv : MaskInv st) : MaskInv st2 := by
  induction L generalizing st with
  | nil =>
    simp only [processLines] at h
    exact (Except.ok.inj h) ▸ hinv
  | cons l ls ih =>
    simp only [processLines] at h
    cases hl : processLine st l with
    | error e => rw [hl] at h; exact absurd h (by simp)
    | ok st1 =>
      rw [hl] at h
      exact ih st1 h (processLine_maskInv st st1 l hl hinv)

theorem processLine_seq_mono (st st2 : HmmAlignFile) (l : String) (g : String)
    (h : processLine st l = .ok st2) (hg : containsKey st.seq g = true) :
    containsKey st2.seq g = true := by
  rcases processLine_ok_elim st st2 l h with rfl | ⟨g2, v, _, _, rfl⟩ | ⟨_, v, _, _, rfl⟩ |
      ⟨v, _, _, rfl⟩ | ⟨g2, v, _, _, rfl⟩
  · exact hg
  · exact hg
  · exact hg
  · exact hg
  · simp only [containsKey, List.any_append] at hg ⊢
    simp [containsKey] at hg
    simp [hg]

theorem processLine_ppcons_const (st st2 : HmmAlignFile) (l : String)
    (h : processLine st l = .ok st2)
    (hpre : startsWithL l.data ("#=GC PP_cons".data) = false) :
    st2.pp_cons = st.pp_cons := by
  rcases processLine_ok_elim st st2 l h with rfl | ⟨g2, v, _, _, rfl⟩ | ⟨hpre2, _, _, _, rfl⟩ |
      ⟨v, _, _, rfl⟩ | ⟨g2, v, _, _, rfl⟩
  · rfl
  · rfl
  · rw [hpre] at hpre2; exact absurd hpre2 (by simp)
  · rfl
  · rfl

theorem processLines_ppcons_const (L : List String) (st st2 : HmmAlignFile)
    (h : processLines st L = .ok st2)
    (hpre : ∀ l ∈ L, startsWithL l.data ("#=GC PP_cons".data) = false) :
    st2.pp_cons = st.pp_cons := by
  induction L generalizing st with
  | nil =>
    simp only [processLines] at h
    rw [← Except.ok.inj h]
  | cons l ls ih =>
    simp only [processLines] at h
    cases hl : processLine st l with
    | error e => rw [hl] at h; exact absurd h (by simp)
    | ok st1 =>
      rw [hl] at h
      rw [ih st1 h (fun x hx => hpre x (List.mem_cons_of_mem l hx))]
      exact processLine_ppcons_const st st1 l hl (hpre l (List.mem_cons_self l ls))

theorem processLines_error_elim (L : List String) (st : HmmAlignFile) (e : ProleError)
    (h : processLines st L = .error e) :
    ∃ l ∈ L, e = .Exit ("Error parsing: " ++ l) ∨ e = .Exit ("Duplicate: " ++ l) := by
  induction L generalizing st with
  | nil => simp [processLines] at h
  | cons l ls ih =>
    simp only [processLines] at h
    cases hl : processLine st l with
    | error e2 =>
      rw [hl] at h
      refine ⟨l, List.mem_cons_self l ls, ?_⟩
      rw [← Except.error.inj h]
      exact processLine_error_elim st l e2 hl
    | ok st1 =>
      rw [hl] at h
      obtain ⟨x, hx, hsh⟩ := ih st1 h
      exact ⟨x, List.mem_cons_of_mem l hx, hsh⟩

theorem processLines_append (st : HmmAlignFile) (p q : List String) :
    processLines st (p ++ q) =
      match processLines st p with
      | .error e => .error e
      | .ok st2 => processLines st2 q := by
  induction p generalizing st with
  | nil => simp [processLines]
  | cons l ls ih =>
    simp only [List.cons_append, processLines]
    cases hl : processLine st l with
    | error e => simp
    | ok st1 => exact ih st1

theorem validate_ok_elim (st st2 : HmmAlignFile) (h : validate st = .ok st2) :
    st2 = st ∧ st.seq ≠ [] ∧ st.pp ≠ [] ∧ st.seq.length = st.pp.length ∧
      st.pp_cons.data ≠ [] ∧ st.mask ≠ [] ∧ st.mask_idx ≠ [] := by
  unfold validate at h
  split at h
  · exact absurd h (by simp)
  · split at h
    · exact absurd h (by simp)
    · split at h
      · exact absurd h (by simp)
      · split at h
        · exact absurd h (by simp)
        · split at h
          · exact absurd h (by simp)
          · rename_i h1 h2 h3 h4 h5
            refine ⟨(Except.ok.inj h).symm, ?_, ?_, ?_, ?_, ?_, ?_⟩
            · simpa [List.isEmpty_iff] using h1
            · simpa [List.isEmpty_iff] using h2
            · simpa using h3
            · simpa [List.isEmpty_iff] using h4
            · have := (by simpa using h5 : ¬(st.mask.isEmpty = true ∨ st.mask_idx.isEmpty = true))
              simpa [List.isEmpty_iff] using fun hh => this (Or.inl (by simp [hh]))
            · have := (by simpa using h5 : ¬(st.mask.isEmpty = true ∨ st.mask_idx.isEmpty = true))
              simpa [List.isEmpty_iff] using fun hh => this (Or.inr (by simp [hh]))

theorem from_bufreader_ok_elim (L : List String) (st : HmmAlignFile)
    (h : from_bufreader L = .ok st) :
    processLines emptyFile L = .ok st ∧ st.seq ≠ [] ∧ st.pp ≠ [] ∧
      st.seq.length = st.pp.length ∧ st.pp_cons.data ≠ [] ∧ st.mask ≠ [] ∧
      st.mask_idx ≠ [] := by
  unfold from_bufreader at h
  cases hp : processLines emptyFile L with
  | error e => rw [hp] at h; exact absurd h (by simp)
  | ok st1 =>
    rw [hp] at h
    obtain ⟨heq, hrest⟩ := validate_ok_elim st1 st h
    subst heq
    exact ⟨rfl, hrest⟩

theorem from_bufreader_maskInv (L : List String) (st : HmmAlignFile)
    (h : from_bufreader L = .ok st) : MaskInv st := by
  obtain ⟨hp, -⟩ := from_bufreader_ok_elim L st h
  exact processLines_maskInv L emptyFile st hp rfl

theorem get?_eq_getD (cs : List Char) (i : Nat) (h : i < cs.length) :
    cs.get? i = some (cs.getD i ' ') := by
  induction cs generalizing i with
  | nil => simp at h
  | cons c cs ih =>
    cases i with
    | zero => rfl
    | succ i =>
      simp only [List.get?_cons_succ, List.getD_cons_succ]
      exact ih i (by simpa using h)

theorem pickChars_eq_map (cs : List Char) (idxs : List Nat)
    (h : ∀ i ∈ idxs, i < cs.length) :
    pickChars cs idxs = some (idxs.map (fun i => cs.getD i ' ')) := by
  induction idxs with
  | nil => rfl
  | cons i is ih =>
    have hi : i < cs.length := h i (List.mem_cons_self i is)
    simp only [pickChars, get?_eq_getD cs i hi,
      ih (fun j hj => h j (List.mem_cons_of_mem i hj)), List.map_cons]

theorem idxTrue_eq_nil (m : List Bool) (i : Nat) (h : ∀ b ∈ m, b = false) :
    idxTrue m i = [] := by
  induction m generalizing i with
  | nil => rfl
  | cons b bs ih =>
    have hb : b = false := h b (List.mem_cons_self b bs)
    subst hb
    rw [idxTrue_cons_false]
    exact ih (i + 1) (fun x hx => h x (List.mem_cons_of_mem false hx))

theorem alignRowId_elim (l : String) (g : String) (h : alignRowId l = some g) :
    (∀ st, processLine st l = alignLine st l) ∧
    ∃ v, matchAlign l.data = some (g.data, v) := by
  simp only [alignRowId] at h
  split at h
  · exact absurd h (by simp)
  · rename_i hcond
    cases hm : matchAlign l.data with
    | none => rw [hm] at h; exact absurd h (by simp)
    | some p =>
      obtain ⟨gid, v⟩ := p
      simp only [hm] at h
      have hg := Option.some.inj h
      subst hg
      have hbig := Bool.eq_false_iff.mpr hcond
      simp only [Bool.or_eq_false_iff] at hbig
      obtain ⟨⟨⟨⟨⟨h0, h1⟩, h2⟩, h3⟩, h4⟩, h5⟩ := hbig
      constructor
      · intro st
        simp [processLine, h0, h1, h2, h3, h4, h5]
      · exact ⟨v, rfl⟩

theorem alignLine_dup (st : HmmAlignFile) (l : String) (g : String) (v : List Char)
    (hm : matchAlign l.data = some (g.data, v)) (hdup : containsKey st.seq g = true) :
    alignLine st l = .error (.Exit ("Duplicate: " ++ l)) := by
  simp only [alignLine, hm]
  rw [show (⟨g.data⟩ : String) = g from rfl, hdup]
  simp

theorem alignLine_ok_contains (st st2 : HmmAlignFile) (l : String) (g : String)
    (v : List Char) (hm : matchAlign l.data = some (g.data, v))
    (h : alignLine st l = .ok st2) : containsKey st2.seq g = true := by
  simp only [alignLine, hm] at h
  rw [show (⟨g.data⟩ : String) = g from rfl] at h
  split at h
  · exact absurd h (by simp)
  · rw [← Except.ok.inj h]
    simp [containsKey]

theorem processLines_seq_mono (L : List String) (st st2 : HmmAlignFile) (g : String)
    (h : processLines st L = .ok st2) (hg : containsKey st.seq g = true) :
    containsKey st2.seq g = true := by
  induction L generalizing st with
  | nil =>
    simp only [processLines] at h
    exact (Except.ok.inj h) ▸ hg
  | cons l ls ih =>
    simp only [processLines] at h
    cases hl : processLine st l with
    | error e => rw [hl] at h; exact absurd h (by simp)
    | ok st1 =>
      rw [hl] at h
      exact ih st1 h (processLine_seq_mono st st1 l g hl hg)

theorem processLines_mem_align (L : List String) (st st2 : HmmAlignFile)
    (l : String) (g : String)
    (h : processLines st L = .ok st2) (hmem : l ∈ L) (hid : alignRowId l = some g) :
    containsKey st2.seq g = true := by
  induction L generalizing st with
  | nil => simp at hmem
  | cons l0 ls ih =>
    simp only [processLines] at h
    cases hl : processLine st l0 with
    | error e => rw [hl] at h; exact absurd h (by simp)
    | ok st1 =>
      rw [hl] at h
      rcases List.mem_cons.mp hmem with rfl | hmem2
      · obtain ⟨hroute, v, hm⟩ := alignRowId_elim l g hid
        have hc : containsKey st1.seq g = true :=
          alignLine_ok_contains st st1 l g v hm ((hroute st) ▸ hl)
        exact processLines_seq_mono ls st1 st2 g h hc
      · exact ih st1 h hmem2

/-- Lines of a small well-formed input (one sequence, one posterior, one
consensus, one mask row), as the test file presents them. -/
def exLines : List String :=
  ["# STOCKHOLM 1.0", "G1           .mAKIIN", "#=GR G1 PP   .*799**",
   "#=GC PP_cons ..79***", "#=GC RF      ..x.xx.", "//"]

/-- The structure parsing exLines yields. -/
def exFile : HmmAlignFile :=
  { seq := [("G1", ".mAKIIN")], pp := [("G1", ".*799**")], pp_cons := "..79***",
    mask := [false, false, true, false, true, true, false], mask_idx := [2, 4, 5] }

/-- Lines of a well-formed input whose aligned string (length 2) is shorter
than the highest retained mask index (2). -/
def shortSeqLines : List String :=
  ["G1 ab", "#=GR G1 PP cd", "#=GC PP_cons ef", "#=GC RF ..x"]

/-- The structure parsing shortSeqLines yields. -/
def shortSeqFile : HmmAlignFile :=
  { seq := [("G1", "ab")], pp := [("G1", "cd")], pp_cons := "ef",
    mask := [false, false, true], mask_idx := [2] }

/-- Claim C1: the claim says get_alignment returns an explicit OutOfRange error
when a retained index is at least the length of the aligned string; the
source instead indexes seq_chars[idx] without a bounds check, so on the
successfully parsed shortSeqLines the call panics. -/
theorem get_alignment_panics_out_of_range :
    from_bufreader shortSeqLines = .ok shortSeqFile ∧
    get_alignment shortSeqFile "G1" = .panicked := by decide

theorem validate_ppcons_empty (st : HmmAlignFile) (h : st.pp_cons.data = []) :
    ∃ e, validate st = .error e ∧ e ≠ ProleError.Exit "Missing mask" := by
  unfold validate
  split
  · exact ⟨_, rfl, by decide⟩
  · split
    · exact ⟨_, rfl, by decide⟩
    · split
      · exact ⟨_, rfl, by decide⟩
      · split
        · exact ⟨_, rfl, by decide⟩
        · rename_i h4
          exact absurd (by simp [h] : st.pp_cons.data.isEmpty = true) h4

/-- Claim C2 (amended): a stream with a sequence-alignment row but no
reference-mask row and no consensus row never parses; the final error is
never the one naming the missing mask, because the consensus check (and
every check before it) precedes the mask check in the validator's fixed
order. -/
theorem missing_consensus_reported_before_mask (L : List String)
    (_hseq : ∃ l ∈ L, (alignRowId l).isSome = true)
    (_hrf : ∀ l ∈ L, startsWithL l.data ("#=GC RF".data) = false)
    (hcons : ∀ l ∈ L, startsWithL l.data ("#=GC PP_cons".data) = false) :
    ∃ e, from_bufreader L = .error e ∧ e ≠ ProleError.Exit "Missing mask" := by
  unfold from_bufreader
  cases hp : processLines emptyFile L with
  | error e =>
    obtain ⟨l, _, hsh⟩ := processLines_error_elim L emptyFile e hp
    refine ⟨e, rfl, ?_⟩
    rcases hsh with rfl | rfl
    · exact errParse_ne_missing_mask l
    · exact dup_ne_missing_mask l
  | ok st =>
    have hpc : st.pp_cons = emptyFile.pp_cons :=
      processLines_ppcons_const L emptyFile st hp hcons
    exact validate_ppcons_empty st (by rw [hpc]; rfl)

theorem missing_consensus_reported_before_mask_witness :
    ∃ e, from_bufreader ["G1 ab"] = .error e ∧ e ≠ ProleError.Exit "Missing mask" :=
  missing_consensus_reported_before_mask ["G1 ab"] (by decide) (by decide) (by decide)

/-- Claim C2 counterexample: this stream has a sequence-alignment row, no mask
row and no consensus row, yet the error names the missing consensus, not
the missing mask. -/
theorem validator_names_ppcons_not_mask_cex :
    from_bufreader ["G1 .mAKIIN", "#=GR G1 PP .*799**"] =
      .error (.Exit "Missing PP_cons") ∧
    from_bufreader ["G1 .mAKIIN", "#=GR G1 PP .*799**"] ≠
      .error (.Exit "Missing mask") := by decide

/-- Claim C3: on a successfully parsed structure, projection of any mapped
identifier whose aligned string covers every retained index returns a
string whose length is the number of true entries of the boolean mask. -/
theorem projection_length_eq_mask_true_count (L : List String) (st : HmmAlignFile)
    (gid s : String)
    (hok : from_bufreader L = .ok st)
    (hget : mapGet st.seq gid = some s)
    (hlen : ∀ i ∈ st.mask_idx, i < s.data.length) :
    ∃ out, get_alignment st gid = .ok out ∧ out.length = st.mask.count true := by
  have hinv : st.mask_idx = idxTrue st.mask 0 := from_bufreader_maskInv L st hok
  refine ⟨⟨st.mask_idx.map (fun i => s.data.getD i ' ')⟩, ?_, ?_⟩
  · simp only [get_alignment, hget, pickChars_eq_map s.data st.mask_idx hlen]
  · show (String.mk (st.mask_idx.map (fun i => s.data.getD i ' '))).length = _
    simp only [String.length, List.length_map]
    rw [hinv]
    exact idxTrue_length st.mask 0

theorem projection_length_eq_mask_true_count_witness :
    ∃ out, get_alignment exFile "G1" = .ok out ∧ out.length = exFile.mask.count true :=
  projection_length_eq_mask_true_count exLines exFile "G1" ".mAKIIN"
    (by decide) (by decide) (by decide)

/-- Claim C4: once a prefix of the stream containing a sequence-alignment row
for an identifier has been consumed without error, a later
sequence-alignment row with the same identifier stops the parse right
there with the Duplicate error naming that line, whatever follows; the
caller gets an error, never a partial structure. -/
theorem duplicate_seq_id_aborts_parse (p rest : List String) (l1 l2 : String)
    (g : String) (st : HmmAlignFile)
    (hp : processLines emptyFile p = .ok st)
    (hmem : l1 ∈ p) (h1 : alignRowId l1 = some g) (h2 : alignRowId l2 = some g) :
    from_bufreader (p ++ l2 :: rest) = .error (.Exit ("Duplicate: " ++ l2)) := by
  have hg : containsKey st.seq g = true :=
    processLines_mem_align p emptyFile st l1 g hp hmem h1
  obtain ⟨hroute, v, hm⟩ := alignRowId_elim l2 g h2
  have hdup : processLine st l2 = .error (.Exit ("Duplicate: " ++ l2)) := by
    rw [hroute st]
    exact alignLine_dup st l2 g v hm hg
  have hall : processLines emptyFile (p ++ l2 :: rest) =
      .error (.Exit ("Duplicate: " ++ l2)) := by
    rw [processLines_append emptyFile p (l2 :: rest), hp]
    show processLines st (l2 :: rest) = _
    simp only [processLines]
    rw [hdup]
  unfold from_bufreader
  rw [hall]

theorem duplicate_seq_id_aborts_parse_witness :
    from_bufreader (["G1 ab"] ++ "G1 cd" :: []) = .error (.Exit "Duplicate: G1 cd") :=
  duplicate_seq_id_aborts_parse ["G1 ab"] [] "G1 ab" "G1 cd" "G1"
    { emptyFile with seq := [("G1", "ab")] }
    (by decide) (by decide) (by decide) (by decide)

/-- Claim C5: the reference-mask scan walks the value token character by
character at 0-based positions, records true exactly for the designated
character x and false for every other character, and collects the
positions of the trues; on the value token of the row
`#=GC RF      ..x.xx.` this yields the booleans [F,F,T,F,T,T,F] and the
retained indices [2,4,5]. -/
theorem mask_row_scan_marks_x_retained :
    (∀ (cs : List Char) (i : Nat),
      (buildMask cs i).1 = cs.map (fun c => c == 'x') ∧
      (buildMask cs i).2 = idxTrue (cs.map (fun c => c == 'x')) i) ∧
    processLine emptyFile "#=GC RF      ..x.xx." =
      .ok { emptyFile with
              mask := [false, false, true, false, true, true, false],
              mask_idx := [2, 4, 5] } :=
  ⟨buildMask_spec, by decide⟩

/-- Claim C6: projection reads the aligned string bound to the identifier as an
indexable character sequence and concatenates the characters at the
retained indices, in the order the retained-index list gives them. -/
theorem projection_takes_chars_at_retained_indices (st : HmmAlignFile)
    (gid s : String)
    (hget : mapGet st.seq gid = some s)
    (hlen : ∀ i ∈ st.mask_idx, i < s.data.length) :
    get_alignment st gid = .ok ⟨st.mask_idx.map (fun i => s.data.getD i ' ')⟩ := by
  simp only [get_alignment, hget, pickChars_eq_map s.data st.mask_idx hlen]

theorem projection_takes_chars_at_retained_indices_witness :
    get_alignment exFile "G1" = .ok "AII" := by
  rw [projection_takes_chars_at_retained_indices exFile "G1" ".mAKIIN"
    (by decide) (by decide)]
  decide

/-- Claim C7: a successful parse yields a non-empty sequence map, a non-empty
posterior map, and equal cardinalities of the two maps. -/
theorem parse_ok_seq_pp_nonempty_equal_card (L : List String) (st : HmmAlignFile)
    (h : from_bufreader L = .ok st) :
    st.seq ≠ [] ∧ st.pp ≠ [] ∧ st.seq.length = st.pp.length := by
  obtain ⟨-, h1, h2, h3, -, -, -⟩ := from_bufreader_ok_elim L st h
  exact ⟨h1, h2, h3⟩

theorem parse_ok_seq_pp_nonempty_equal_card_witness :
    exFile.seq ≠ [] ∧ exFile.pp ≠ [] ∧ exFile.seq.length = exFile.pp.length :=
  parse_ok_seq_pp_nonempty_equal_card exLines exFile (by decide)

/-- Claim C8: after a successful parse the retained-index list is strictly
ascending, has as many entries as the boolean mask has trues, and holds
exactly the 0-based positions at which the boolean mask is true. -/
theorem mask_idx_strictly_ascending_true_positions (L : List String)
    (st : HmmAlignFile) (h : from_bufreader L = .ok st) :
    List.Pairwise (fun a b => a < b) st.mask_idx ∧
    st.mask_idx.length = st.mask.count true ∧
    (∀ j, j ∈ st.mask_idx ↔ st.mask.get? j = some true) := by
  have hinv : st.mask_idx = idxTrue st.mask 0 := from_bufreader_maskInv L st h
  refine ⟨hinv ▸ idxTrue_sorted st.mask 0, hinv ▸ idxTrue_length st.mask 0, fun j => ?_⟩
  rw [hinv, idxTrue_mem]
  constructor
  · rintro ⟨k, hk, rfl⟩
    simpa using hk
  · intro hj
    exact ⟨j, hj, by omega⟩

theorem mask_idx_strictly_ascending_true_positions_witness :
    List.Pairwise (fun a b => a < b) exFile.mask_idx ∧
    exFile.mask_idx.length = exFile.mask.count true ∧
    (∀ j, j ∈ exFile.mask_idx ↔ exFile.mask.get? j = some true) :=
  mask_idx_strictly_ascending_true_positions exLines exFile (by decide)

/-- Claim C9: a non-empty line claimed by none of the ignorable or prefixed
branches and made of exactly two whitespace-separated tokens is stored in
the sequence map keyed by its first token, whatever that token looks like
(a fresh key is inserted; a repeated key is the duplicate error of C4). -/
theorem two_token_line_inserted_as_sequence (st : HmmAlignFile) (l : String)
    (gid v : List Char)
    (h0 : l.data.isEmpty = false)
    (h1 : startsWithL l.data ("# STOCKHOLM".data) = false)
    (h2 : startsWithL l.data ("//".data) = false)
    (h3 : startsWithL l.data ("#=GR ".data) = false)
    (h4 : startsWithL l.data ("#=GC PP_cons".data) = false)
    (h5 : startsWithL l.data ("#=GC RF".data) = false)
    (hm : matchAlign l.data = some (gid, v))
    (hdup : containsKey st.seq ⟨gid⟩ = false) :
    processLine st l = .ok { st with seq := st.seq ++ [(⟨gid⟩, ⟨v⟩)] } := by
  simp [processLine, alignLine, h0, h1, h2, h3, h4, h5, hm, hdup]

theorem two_token_line_inserted_as_sequence_witness :
    processLine emptyFile "#=GF AC" = .ok { emptyFile with seq := [("#=GF", "AC")] } := by
  rw [two_token_line_inserted_as_sequence emptyFile "#=GF AC" ("#=GF".data) ("AC".data)
    (by decide) (by decide) (by decide) (by decide) (by decide) (by decide)
    (by decide) (by decide)]
  decide

/-- Claim C10: a mask value token without the designated character x yields as
many booleans as the token has characters but an empty retained-index
list; the validator, once every earlier section check has passed, rejects
an empty retained-index list with the Missing mask error even though the
boolean mask is non-empty; hence every successfully parsed structure has
at least one retained column. -/
theorem no_retained_marker_fails_missing_mask :
    (∀ (cs : List Char) (i : Nat), (∀ c ∈ cs, (c == 'x') = false) →
      (buildMask cs i).1.length = cs.length ∧ (buildMask cs i).2 = []) ∧
    (∀ st : HmmAlignFile, st.seq.isEmpty = false → st.pp.isEmpty = false →
      st.seq.length = st.pp.length → st.pp_cons.data.isEmpty = false →
      st.mask.isEmpty = false → st.mask_idx = [] →
      validate st = .error (.Exit "Missing mask")) ∧
    (∀ (L : List String) (st : HmmAlignFile), from_bufreader L = .ok st →
      st.mask_idx ≠ [] ∧ st.mask ≠ []) := by
  refine ⟨fun cs i hno => ?_, fun st h1 h2 h3 h4 h5 h6 => ?_, fun L st h => ?_⟩
  · obtain ⟨hb1, hb2⟩ := buildMask_spec cs i
    refine ⟨by rw [hb1, List.length_map], ?_⟩
    rw [hb2]
    refine idxTrue_eq_nil _ i (fun b hb => ?_)
    obtain ⟨c, hc, rfl⟩ := List.mem_map.mp hb
    exact hno c hc
  · simp [validate, h1, h2, h3, h4, h5, h6]
  · obtain ⟨-, -, -, -, -, hm, hmi⟩ := from_bufreader_ok_elim L st h
    exact ⟨hmi, hm⟩
